import Mathlib

/-!
Verification of the change-detection pipeline of the competitor-pricing-radar
repository.

The development shallowly embeds the pipeline's pure core:

* `worker/diff.js` — noise filter (`isNoiseLine`, `stripNoise`), snapshot
  differ (`compareSnapshots`), classifier context (`buildDiffContext`);
* `worker/detector.js` — the validation applied to the external classifier's
  parsed response (`detectChanges`);
* `worker/index.js` (the copy shipped in `app/api/submit/route.ts`) — the
  idempotency hash (`buildChangeHash`) and the per-monitor orchestration
  (`processMonitor`), with all external effects (scrape, DB, mail) supplied
  by an explicit environment record.

JavaScript strings are modelled as lists of characters, machine words as
`Nat` reduced modulo `2 ^ 32`, timestamps as integer milliseconds, JSON
numbers as rationals, and the `NaN` result of `parseFloat` as `Option ℚ`
with `none` standing for a non-numeric result.
-/

namespace PricingRadar

/-- A JavaScript string, modelled as its list of characters. -/
abbrev Text := List Char

/-- Whitespace as recognised by JavaScript's `String.prototype.trim` and by
the regex class `\s`: ASCII whitespace plus no-break space and BOM (the
rarer Unicode space separators are omitted; no input in this development
uses them). -/
def isJsWs (c : Char) : Bool :=
  c == ' ' || c == '\t' || c == '\n' || c == '\r' ||
  c == '\x0b' || c == '\x0c' || c == '\u00A0' || c == '\uFEFF'

/-- Leading-whitespace removal (the left half of JS `trim`). -/
def ltrim (l : Text) : Text := l.dropWhile isJsWs

/-- Trailing-whitespace removal (the right half of JS `trim`). -/
def rtrim (l : Text) : Text := (l.reverse.dropWhile isJsWs).reverse

/-- JavaScript `s.trim()`. -/
def trimL (l : Text) : Text := rtrim (ltrim l)

/-- JavaScript `s.split("\n")`: the empty string yields one empty chunk,
and every `'\n'` separates two chunks. -/
def splitNl : Text → List Text
  | [] => [[]]
  | c :: rest =>
    if c = '\n' then [] :: splitNl rest
    else
      match splitNl rest with
      | [] => [[c]]
      | l :: ls => (c :: l) :: ls

/-- JavaScript `chunks.join("\n")`. -/
def joinNl : List Text → Text
  | [] => []
  | [l] => l
  | l :: ls => l ++ '\n' :: joinNl ls

/-- Worker loop of `collapseNl`, carrying the length of the pending run of
newlines: when the run ends, a run of one or two newlines is emitted as
is and a longer run as exactly two, which is what the global greedy regex
`/\n{3,}/g → "\n\n"` does to each maximal newline run. -/
def collapseNlAux : Nat → Text → Text
  | n, [] => List.replicate (min n 2) '\n'
  | n, c :: cs =>
    if c = '\n' then collapseNlAux (n + 1) cs
    else List.replicate (min n 2) '\n' ++ c :: collapseNlAux 0 cs

/-- JavaScript `s.replace(/\n{3,}/g, "\n\n")`: every maximal run of three
or more newlines collapses to two; shorter runs are untouched. -/
def collapseNl (l : Text) : Text := collapseNlAux 0 l

/-- Whether the text contains two adjacent newlines anywhere. -/
def hasNlNl : Text → Bool
  | '\n' :: '\n' :: _ => true
  | _ :: rest => hasNlNl rest
  | [] => false

/-- ASCII lowering, as JS case-insensitive regex matching behaves on the
ASCII literals of the noise patterns. -/
def lowerAscii (c : Char) : Char :=
  if 'A' ≤ c && c ≤ 'Z' then Char.ofNat (c.toNat + 32) else c

/-- One token of a noise regular expression: a case-insensitive literal,
mandatory whitespace `\s+`, optional whitespace `\s*`, or four digits
`\d\x7b4\x7d`. -/
inductive PatTok
  | lit (s : List Char)
  | wsPlus
  | wsStar
  | dig4

/-- Match a token sequence at the start of the text.  Matching is greedy,
which coincides with the JS regex engine on the noise patterns: every
whitespace token there is followed by a non-whitespace literal or digit. -/
def matchToks : List PatTok → Text → Bool
  | [], _ => true
  | .lit s :: ps, l =>
    ((l.take s.length).map lowerAscii == s) && matchToks ps (l.drop s.length)
  | .wsPlus :: ps, l =>
    match l with
    | [] => false
    | c :: cs => isJsWs c && matchToks ps (cs.dropWhile isJsWs)
  | .wsStar :: ps, l => matchToks ps (l.dropWhile isJsWs)
  | .dig4 :: ps, l =>
    ((l.take 4).length == 4) && (l.take 4).all Char.isDigit &&
      matchToks ps (l.drop 4)

/-- Regex `test`: the token sequence matches at some position. -/
def testToks (p : List PatTok) : Text → Bool
  | [] => matchToks p []
  | l@(_ :: cs) => matchToks p l || testToks p cs

/-- The `NOISE_PATTERNS` array of `worker/diff.js`, with every regex
alternation flattened into one token sequence per alternative. -/
def noisePatterns : List (List PatTok) :=
  [ [.lit "utm_source".data], [.lit "utm_medium".data],
    [.lit "utm_campaign".data], [.lit "ga(".data], [.lit "gtag(".data],
    [.lit "fbq(".data], [.lit "_gaq".data], [.lit "analytics.js".data],
    [.lit "last".data, .wsPlus, .lit "updated".data],
    [.lit "©".data, .wsStar, .dig4],
    [.lit "copyright".data, .wsPlus, .dig4],
    [.dig4, .wsPlus, .lit "all".data, .wsPlus, .lit "rights".data],
    [.lit "cookie".data], [.lit "gdpr".data],
    [.lit "we".data, .wsPlus, .lit "use".data, .wsPlus, .lit "cookies".data],
    [.lit "accept".data, .wsPlus, .lit "all".data],
    [.lit "privacy".data, .wsPlus, .lit "policy".data],
    [.lit "terms".data, .wsPlus, .lit "of".data, .wsPlus, .lit "service".data],
    [.lit "terms".data, .wsPlus, .lit "&".data, .wsPlus, .lit "conditions".data],
    [.lit "contact".data, .wsPlus, .lit "us".data],
    [.lit "sitemap".data],
    [.lit "follow".data, .wsPlus, .lit "us".data],
    [.lit "share".data, .wsPlus, .lit "on".data],
    [.lit "tweet".data, .wsPlus, .lit "this".data] ]

/-- The `isNoiseLine` helper of `worker/diff.js`: a line is noise when its
trimmed form is blank or shorter than three characters, or matches one of
the noise patterns (the code tests the patterns against the trimmed line). -/
def isNoiseLine (l : Text) : Bool :=
  let trimmed := trimL l
  trimmed.isEmpty || decide (trimmed.length < 3) ||
    noisePatterns.any (fun p => testToks p trimmed)

/-- The `stripNoise` function of `worker/diff.js` on character lists:
split on newlines, drop noise lines, rejoin, collapse triple newlines,
trim. -/
def stripNoiseL (t : Text) : Text :=
  trimL (collapseNl (joinNl ((splitNl t).filter (fun l => !isNoiseLine l))))

/-- The `stripNoise` function of `worker/diff.js`. -/
def stripNoise (s : String) : String := ⟨stripNoiseL s.data⟩

/-- Modelled from the spec: the whitespace-insensitive line equality used
by the external diff library call `Diff.diffLines(…, \x7b ignoreWhitespace:
true \x7d)` — "runs of whitespace treated as equivalent" (§4.2).  Two lines
are equal when they agree after collapsing every whitespace run to one
space and trimming. -/
def squeezeWsAux : Bool → Text → Text
  | _, [] => []
  | inWs, c :: cs =>
    if isJsWs c then
      if inWs then squeezeWsAux true cs else ' ' :: squeezeWsAux true cs
    else c :: squeezeWsAux false cs

/-- Collapse every whitespace run to a single space (see `squeezeWsAux`;
the flag records whether the previous character was whitespace). -/
def squeezeWs (l : Text) : Text := squeezeWsAux false l

/-- Whitespace-insensitive equality of two lines (see `squeezeWs`). -/
def lineEqIW (a b : Text) : Bool := trimL (squeezeWs a) == trimL (squeezeWs b)

/-- One diff token: a line kept, added, or removed. -/
inductive RawPart
  | same (l : Text)
  | add (l : Text)
  | rem (l : Text)

/-- Number of added/removed tokens in a token diff. -/
def editCost : List RawPart → Nat
  | [] => 0
  | .same _ :: rs => editCost rs
  | .add _ :: rs => 1 + editCost rs
  | .rem _ :: rs => 1 + editCost rs

/-- Modelled from the spec: the line-level diff of the external diff
library (§4.2 "computes a line-level diff … classifies lines as
added/removed").  A minimal-edit diff over line tokens: equal heads are
kept, otherwise the cheaper of remove-first/add-first is taken. -/
def diffTokF : Nat → List Text → List Text → List RawPart
  | _, [], [] => []
  | 0, xs, ys => xs.map .rem ++ ys.map .add
  | f + 1, [], y :: ys => .add y :: diffTokF f [] ys
  | f + 1, x :: xs, [] => .rem x :: diffTokF f xs []
  | f + 1, x :: xs, y :: ys =>
    if lineEqIW x y then .same y :: diffTokF f xs ys
    else
      let d1 := .rem x :: diffTokF f xs (y :: ys)
      let d2 := .add y :: diffTokF f (x :: xs) ys
      if editCost d1 ≤ editCost d2 then d1 else d2

/-- Minimal-edit token diff (see `diffTokF`; the fuel, one unit per token
consumed, is the combined token count, so the fuel-exhausted branch is
never reached from here). -/
def diffTok (xs ys : List Text) : List RawPart :=
  diffTokF (xs.length + ys.length) xs ys

/-- One part of the diff output, as the diff library shapes it: a text
block with `added`/`removed` flags. -/
structure DiffPart where
  value : Text
  added : Bool
  removed : Bool
deriving DecidableEq

/-- A single token as a one-line part. -/
def partOf : RawPart → DiffPart
  | .same l => ⟨l, false, false⟩
  | .add l => ⟨l, true, false⟩
  | .rem l => ⟨l, false, true⟩

/-- Merge adjacent tokens of the same kind into one part, newline-joined,
as the diff library groups consecutive lines into multi-line hunks. -/
def groupParts : List RawPart → List DiffPart
  | [] => []
  | r :: rs =>
    let p := partOf r
    match groupParts rs with
    | [] => [p]
    | q :: qs =>
      if p.added == q.added && p.removed == q.removed then
        ⟨p.value ++ '\n' :: q.value, q.added, q.removed⟩ :: qs
      else p :: q :: qs

/-- Modelled from the spec: `Diff.diffLines` of the external diff library,
at line granularity with whitespace-insensitive matching. -/
def diffLines (o n : Text) : List DiffPart :=
  groupParts (diffTok (splitNl o) (splitNl n))

/-- Result record of `compareSnapshots` in `worker/diff.js`. -/
structure CompareResult where
  added : List String
  removed : List String
  hasChanges : Bool
deriving DecidableEq

/-- The collection loop of `compareSnapshots`: trim each part's value,
skip blocks shorter than three characters, route the rest by flag. -/
def collectParts : List DiffPart → List String × List String
  | [] => ([], [])
  | p :: ps =>
    let (ad, rm) := collectParts ps
    let v := trimL p.value
    if v.isEmpty || decide (v.length < 3) then (ad, rm)
    else if p.added then (String.mk v :: ad, rm)
    else if p.removed then (ad, String.mk v :: rm)
    else (ad, rm)

/-- The `compareSnapshots` function of `worker/diff.js`: strip noise from
both snapshots, diff them line-by-line ignoring whitespace, and collect
the significant added/removed blocks. -/
def compareSnapshots (oldText newText : String) : CompareResult :=
  let cleanOld := stripNoiseL oldText.data
  let cleanNew := stripNoiseL newText.data
  let (ad, rm) := collectParts (diffLines cleanOld cleanNew)
  ⟨ad, rm, decide (0 < ad.length) || decide (0 < rm.length)⟩

/-- The "REMOVED:" section of `buildDiffContext` (empty when no block was
removed). -/
def removedSection (rm : List String) : String :=
  if 0 < rm.length then "REMOVED:\n" ++ String.intercalate "\n" (rm.take 10) ++ "\n\n"
  else ""

/-- The "ADDED:" section of `buildDiffContext` (empty when no block was
added). -/
def addedSection (ad : List String) : String :=
  if 0 < ad.length then "ADDED:\n" ++ String.intercalate "\n" (ad.take 10)
  else ""

/-- The `buildDiffContext` function of `worker/diff.js`: `none` when the
compare step reports no changes, otherwise the removed and added sections
truncated to `maxChars` characters. -/
def buildDiffContext (oldText newText : String) (maxChars : Nat) : Option String :=
  let r := compareSnapshots oldText newText
  if !r.hasChanges then none
  else some ⟨((removedSection r.removed ++ addedSection r.added).data.take maxChars)⟩

/-- Reduce to a 32-bit word. -/
def w32 (n : Nat) : Nat := n % 4294967296

/-- Right rotation of a 32-bit word by `k` (0 < k < 32). -/
def rotr32 (k n : Nat) : Nat := w32 ((n >>> k) + (n % 2 ^ k) * 2 ^ (32 - k))

/-- SHA-256 `Ch(x, y, z)`. -/
def shaCh (x y z : Nat) : Nat := (x &&& y) ^^^ ((x ^^^ 4294967295) &&& z)

/-- SHA-256 `Maj(x, y, z)`. -/
def shaMaj (x y z : Nat) : Nat := (x &&& y) ^^^ (x &&& z) ^^^ (y &&& z)

/-- SHA-256 `Σ₀`. -/
def bigSig0 (x : Nat) : Nat := rotr32 2 x ^^^ rotr32 13 x ^^^ rotr32 22 x

/-- SHA-256 `Σ₁`. -/
def bigSig1 (x : Nat) : Nat := rotr32 6 x ^^^ rotr32 11 x ^^^ rotr32 25 x

/-- SHA-256 `σ₀`. -/
def smallSig0 (x : Nat) : Nat := rotr32 7 x ^^^ rotr32 18 x ^^^ (x >>> 3)

/-- SHA-256 `σ₁`. -/
def smallSig1 (x : Nat) : Nat := rotr32 17 x ^^^ rotr32 19 x ^^^ (x >>> 10)

/-- The 64 SHA-256 round constants of FIPS 180-4 section 4.2.2 (the
fractional parts of the cube roots of the first 64 primes), written in
decimal. -/
def shaK : List Nat :=
  [ 1116352408, 1899447441, 3049323471, 3921009573, 961987163,
    1508970993, 2453635748, 2870763221, 3624381080, 310598401,
    607225278, 1426881987, 1925078388, 2162078206, 2614888103,
    3248222580, 3835390401, 4022224774, 264347078, 604807628,
    770255983, 1249150122, 1555081692, 1996064986, 2554220882,
    2821834349, 2952996808, 3210313671, 3336571891, 3584528711,
    113926993, 338241895, 666307205, 773529912, 1294757372,
    1396182291, 1695183700, 1986661051, 2177026350, 2456956037,
    2730485921, 2820302411, 3259730800, 3345764771, 3516065817,
    3600352804, 4094571909, 275423344, 430227734, 506948616,
    659060556, 883997877, 958139571, 1322822218, 1537002063,
    1747873779, 1955562222, 2024104815, 2227730452, 2361852424,
    2428436474, 2756734187, 3204031479, 3329325298 ]

/-- The eight 32-bit working variables of the SHA-256 compression. -/
structure Sha256State where
  a : Nat
  b : Nat
  c : Nat
  d : Nat
  e : Nat
  f : Nat
  g : Nat
  h : Nat

/-- The SHA-256 initial hash value of FIPS 180-4 section 5.3.3 (the
fractional parts of the square roots of the first 8 primes), in
decimal. -/
def shaInit : Sha256State :=
  ⟨1779033703, 3144134277, 1013904242, 2773480762,
   1359893119, 2600822924, 528734635, 1541459225⟩

/-- One SHA-256 round, taking the pair of round constant and schedule
word. -/
def shaRound (st : Sha256State) (kw : Nat × Nat) : Sha256State :=
  let t1 := w32 (st.h + bigSig1 st.e + shaCh st.e st.f st.g + kw.1 + kw.2)
  let t2 := w32 (bigSig0 st.a + shaMaj st.a st.b st.c)
  ⟨w32 (t1 + t2), st.a, st.b, st.c, w32 (st.d + t1), st.e, st.f, st.g⟩

/-- Extend the message schedule by one word. -/
def scheduleStep (ws : List Nat) : List Nat :=
  let n := ws.length
  ws ++ [w32 (smallSig1 (ws.getD (n - 2) 0) + ws.getD (n - 7) 0 +
              smallSig0 (ws.getD (n - 15) 0) + ws.getD (n - 16) 0)]

/-- Extend the 16 chunk words to the 64-word message schedule. -/
def schedule (ws : List Nat) : List Nat := scheduleStep^[48] ws

/-- Big-endian 32-bit words from a byte list. -/
def wordsOfBytes : List Nat → List Nat
  | b0 :: b1 :: b2 :: b3 :: rest =>
    (b0 * 16777216 + b1 * 65536 + b2 * 256 + b3) :: wordsOfBytes rest
  | _ => []

/-- Compress one 64-byte chunk into the running state. -/
def compressChunk (st : Sha256State) (chunk : List Nat) : Sha256State :=
  let ws := schedule (wordsOfBytes chunk)
  let t := (shaK.zip ws).foldl shaRound st
  ⟨w32 (st.a + t.a), w32 (st.b + t.b), w32 (st.c + t.c), w32 (st.d + t.d),
   w32 (st.e + t.e), w32 (st.f + t.f), w32 (st.g + t.g), w32 (st.h + t.h)⟩

/-- SHA-256 padding: `0x80`, zeros to 56 mod 64, then the bit length as a
big-endian 64-bit integer. -/
def padMessage (msg : List Nat) : List Nat :=
  let bits := 8 * msg.length
  msg ++ 0x80 :: List.replicate ((119 - msg.length % 64) % 64) 0 ++
    [bits / 2 ^ 56 % 256, bits / 2 ^ 48 % 256, bits / 2 ^ 40 % 256,
     bits / 2 ^ 32 % 256, bits / 2 ^ 24 % 256, bits / 2 ^ 16 % 256,
     bits / 2 ^ 8 % 256, bits % 256]

/-- Split a byte list into 64-byte chunks. -/
def chunks64F : Nat → List Nat → List (List Nat)
  | _, [] => []
  | 0, _ :: _ => []
  | f + 1, l => l.take 64 :: chunks64F f (l.drop 64)

/-- Split a byte list into 64-byte chunks (see `chunks64F`; the fuel, one
unit per chunk of at least one byte, is the byte count, so the
fuel-exhausted branch is never reached from here). -/
def chunks64 (l : List Nat) : List (List Nat) := chunks64F l.length l

/-- The four big-endian bytes of a 32-bit word. -/
def wordBytes (w : Nat) : List Nat :=
  [w / 16777216 % 256, w / 65536 % 256, w / 256 % 256, w % 256]

/-- SHA-256 of a byte list, as its 32 digest bytes (FIPS 180-4; the
behaviour of Node's `crypto.createHash("sha256")`). -/
def sha256 (msg : List Nat) : List Nat :=
  let fin := (chunks64 (padMessage msg)).foldl compressChunk shaInit
  wordBytes fin.a ++ wordBytes fin.b ++ wordBytes fin.c ++ wordBytes fin.d ++
    wordBytes fin.e ++ wordBytes fin.f ++ wordBytes fin.g ++ wordBytes fin.h

/-- UTF-8 encoding of one character (Node's default `update` encoding). -/
def utf8Bytes (c : Char) : List Nat :=
  let n := c.toNat
  if n < 0x80 then [n]
  else if n < 0x800 then [0xc0 + n / 64, 0x80 + n % 64]
  else if n < 0x10000 then [0xe0 + n / 4096, 0x80 + n / 64 % 64, 0x80 + n % 64]
  else [0xf0 + n / 262144, 0x80 + n / 4096 % 64, 0x80 + n / 64 % 64, 0x80 + n % 64]

/-- UTF-8 bytes of a string. -/
def strBytes (s : String) : List Nat := s.data.flatMap utf8Bytes

/-- Lowercase hex digit of a nibble (matches Node's `digest("hex")`). -/
def hexDigit : Nat → Char
  | 0 => '0' | 1 => '1' | 2 => '2' | 3 => '3' | 4 => '4' | 5 => '5'
  | 6 => '6' | 7 => '7' | 8 => '8' | 9 => '9' | 10 => 'a' | 11 => 'b'
  | 12 => 'c' | 13 => 'd' | 14 => 'e' | 15 => 'f' | _ => '0'

/-- Hex encoding of a byte list, two lowercase digits per byte. -/
def bytesToHex (bs : List Nat) : List Char :=
  bs.flatMap (fun b => [hexDigit (b / 16), hexDigit (b % 16)])

/-- The sixteen lowercase hex digits. -/
def hexAlphabet : List Char := "0123456789abcdef".data

/-- The `ChangeResult` record declared in `worker/detector.js`
(`@typedef`): change type, one-sentence summary, before/after values, plan
name, and confidence score. -/
structure ChangeResult where
  type : String
  summary : String
  old_value : String
  new_value : String
  plan : String
  confidence_score : ℚ
deriving DecidableEq

/-- The string hashed by `buildChangeHash`: the template literal
interpolating type, old value, new value and plan, joined by `::`. -/
def changeRaw (c : ChangeResult) : String :=
  c.type ++ "::" ++ c.old_value ++ "::" ++ c.new_value ++ "::" ++ c.plan

/-- The `buildChangeHash` helper of the worker: the first 32 hex
characters of the SHA-256 of `changeRaw`. -/
def buildChangeHash (c : ChangeResult) : String :=
  ⟨(bytesToHex (sha256 (strBytes (changeRaw c)))).take 32⟩

/-- A primitive JSON value, as `JSON.parse` can place in a field of the
classifier's parsed response (arrays and nested objects are outside the
classifier's response schema and are not modelled). -/
inductive JValue
  | null
  | bool (b : Bool)
  | num (q : ℚ)
  | str (s : String)
deriving DecidableEq

/-- JavaScript truthiness of a primitive JSON value. -/
def jsTruthy : JValue → Bool
  | .null => false
  | .bool b => b
  | .num q => decide (q ≠ 0)
  | .str s => !s.isEmpty

/-- JavaScript `x || d` on an optional field: the field's value when
present and truthy, otherwise the default. -/
def jsOrElse (v : Option JValue) (d : JValue) : JValue :=
  match v with
  | some w => if jsTruthy w then w else d
  | none => d

/-- JavaScript `parseFloat` on a string: optional sign, decimal digits
with optional fraction and optional exponent, read from the longest valid
prefix after leading whitespace; `none` models `NaN` (no digit found).
`Infinity` literals are not modelled (no claim touches them). -/
def strParseFloat (s : String) : Option ℚ :=
  let l := s.data.dropWhile isJsWs
  let sign : ℚ := match l with | '-' :: _ => -1 | _ => 1
  let l1 := match l with | '-' :: r => r | '+' :: r => r | _ => l
  let intDigs := l1.takeWhile Char.isDigit
  let r1 := l1.dropWhile Char.isDigit
  let fracDigs := match r1 with | '.' :: r => r.takeWhile Char.isDigit | _ => []
  let r2 := match r1 with | '.' :: r => r.dropWhile Char.isDigit | _ => r1
  if intDigs.isEmpty && fracDigs.isEmpty then none
  else
    let digitsVal : List Char → Nat := fun ds =>
      ds.foldl (fun acc c => 10 * acc + (c.toNat - 48)) 0
    let mant : ℚ := (digitsVal intDigs : ℚ) +
      (digitsVal fracDigs : ℚ) / 10 ^ fracDigs.length
    let expDigs := match r2 with
      | 'e' :: '-' :: r => r.takeWhile Char.isDigit
      | 'e' :: '+' :: r => r.takeWhile Char.isDigit
      | 'e' :: r => r.takeWhile Char.isDigit
      | 'E' :: '-' :: r => r.takeWhile Char.isDigit
      | 'E' :: '+' :: r => r.takeWhile Char.isDigit
      | 'E' :: r => r.takeWhile Char.isDigit
      | _ => []
    let expNeg : Bool := match r2 with
      | 'e' :: '-' :: _ => true | 'E' :: '-' :: _ => true | _ => false
    let e : ℚ := if expDigs.isEmpty then 1
      else if expNeg then 1 / 10 ^ digitsVal expDigs else 10 ^ digitsVal expDigs
    some (sign * mant * e)

/-- JavaScript `parseFloat(field ?? 0)` as `worker/detector.js` applies it
to the parsed `confidence_score` field: a missing or `null` field becomes
`parseFloat(0) = 0`; a number is itself; a string is parsed; a boolean
stringifies to a non-numeric word, i.e. `NaN` (`none`). -/
def confidenceOf (v : Option JValue) : Option ℚ :=
  match v with
  | none => some 0
  | some .null => some 0
  | some (.num q) => some q
  | some (.str s) => strParseFloat s
  | some (.bool _) => none

/-- JavaScript `x < 0.6` where `x` may be `NaN`: `NaN < 0.6` is `false`. -/
def jsLtThreshold (v : Option ℚ) : Bool :=
  match v with
  | some q => decide (q < 3 / 5)
  | none => false

/-- The classifier response record after `JSON.parse`, restricted to the
fields `worker/detector.js` reads; `none` is an absent field. -/
structure ParsedResponse where
  type : Option JValue
  summary : Option JValue
  old_value : Option JValue
  new_value : Option JValue
  plan : Option JValue
  confidence_score : Option JValue
deriving DecidableEq

/-- The value returned by `detectChanges` on the happy path: the validated
type string, the defaulted fields (kept as the JSON values the code passes
through), and the parsed confidence (`none` models `NaN`). -/
structure DetectorResult where
  type : String
  summary : JValue
  old_value : JValue
  new_value : JValue
  plan : JValue
  confidence_score : Option ℚ
deriving DecidableEq

/-- The four recognised change types of `worker/detector.js`. -/
def validTypes : List String :=
  ["price_change", "tier_change", "feature_change", "copy_change"]

/-- The validation `worker/detector.js` applies to the parsed classifier
response (`!parsed.type || !validTypes.includes(parsed.type)` → null;
`parseFloat(parsed.confidence_score ?? 0) < 0.6` → null; otherwise the
record with `||`-defaults). -/
def validateParsed (p : ParsedResponse) : Option DetectorResult :=
  match p.type with
  | some (.str s) =>
    if jsTruthy (.str s) && validTypes.contains s then
      let confidence := confidenceOf p.confidence_score
      if jsLtThreshold confidence then none
      else some
        ⟨s, jsOrElse p.summary (.str "Pricing change detected"),
         jsOrElse p.old_value (.str ""), jsOrElse p.new_value (.str ""),
         jsOrElse p.plan (.str "Unknown"), confidence⟩
    else none
  | _ => none

/-- The raw classifier response, as `detectChanges` branches on it: the
sentinel/empty answer, a reply that fails `JSON.parse`, or a parsed
record. -/
inductive ClassifierResponse
  | noChange
  | unparseable
  | parsed (p : ParsedResponse)
deriving DecidableEq

/-- The `detectChanges` function of `worker/detector.js`, given the
external service's response: empty or sentinel replies and parse failures
yield `none`; a parsed record goes through `validateParsed`. -/
def detectChanges (r : ClassifierResponse) : Option DetectorResult :=
  match r with
  | .noChange => none
  | .unparseable => none
  | .parsed p => validateParsed p

/-- A row of the `monitors` table, with the fields `processMonitor`
reads and writes.  Timestamps are integer milliseconds; `none` is SQL
`NULL`. -/
structure Monitor where
  id : String
  user_email : String
  competitor_name : String
  url : String
  is_active : Bool
  last_checked_at : Option Int
  last_change_hash : Option String
  last_change_type : Option String
  last_meaningful_change_at : Option Int
deriving DecidableEq

/-- A row of the `snapshots` table. -/
structure Snapshot where
  id : String
  monitor_id : String
  content : String
  fetched_at : Int
deriving DecidableEq

/-- A row of the `alerts` table as the worker writes it; `emailed` is the
schema default `false` at insert and is set `true` only after a successful
send. -/
structure AlertRow where
  monitor_id : String
  summary : String
  old_snapshot_id : String
  new_snapshot_id : String
  change_type : String
  old_value : String
  new_value : String
  plan_name : String
  confidence_score : ℚ
  emailed : Bool
deriving DecidableEq

/-- One cycle's external world, fixed before `processMonitor` runs: the
clock, the scrape result, the most recent stored snapshot, whether each
insert succeeds, the ids the store assigns, the classifier's verdict for
this snapshot pair, and whether the notification send succeeds. -/
structure WorkerEnv where
  now : Int
  scrapeResult : Option String
  prevSnapshot : Option Snapshot
  snapInsertFails : Bool
  newSnapshotId : String
  detectResult : Option ChangeResult
  alertInsertFails : Bool
  emailFails : Bool
deriving DecidableEq

/-- Everything observable about one `processMonitor` run: whether the page
fetch was attempted, whether a snapshot row was inserted, the final state
of the alert row if one was inserted, whether the notifier was invoked,
and the monitor row as the store holds it afterwards. -/
structure ProcResult where
  fetchAttempted : Bool
  snapshotInserted : Bool
  alertRow : Option AlertRow
  emailAttempted : Bool
  monitor : Monitor
deriving DecidableEq

/-- The 24-hour cooldown window in milliseconds. -/
def twentyFourHoursMs : Int := 86400000

/-- The duplicate test of `processMonitor` step 8:
`monitor.last_change_hash && monitor.last_change_hash === changeHash`
(a `NULL` or empty stored hash is falsy). -/
def isDuplicateHash (stored : Option String) (changeHash : String) : Bool :=
  match stored with
  | some h => !(h == "") && h == changeHash
  | none => false

/-- The 24-hour cooldown test opening `processMonitor`: true when the
monitor has a `last_checked_at` stamp less than 24 hours before now. -/
def cooldownActive (env : WorkerEnv) (m : Monitor) : Bool :=
  match m.last_checked_at with
  | some t => decide (env.now - t < twentyFourHoursMs)
  | none => false

/-- The `processMonitor` function of the worker (`app/api/submit/route.ts`
lines 292–435), with its effects on the store recorded in the result:
cooldown check, scrape, snapshot insert, `last_checked_at` stamp, baseline
return, diff gate, classifier gate, duplicate gate, alert insert, email
send, and — only after a successful send — the `emailed` flag and the
monitor's change-tracking fields. -/
def processMonitor (env : WorkerEnv) (m : Monitor) : ProcResult :=
  if cooldownActive env m then ⟨false, false, none, false, m⟩
  else match env.scrapeResult with
  | none => ⟨true, false, none, false, m⟩
  | some newContent =>
    if env.snapInsertFails then ⟨true, false, none, false, m⟩
    else
      let m1 := { m with last_checked_at := some env.now }
      match env.prevSnapshot with
      | none => ⟨true, true, none, false, m1⟩
      | some prevSnap =>
        if !(compareSnapshots prevSnap.content newContent).hasChanges then
          ⟨true, true, none, false, m1⟩
        else match env.detectResult with
        | none => ⟨true, true, none, false, m1⟩
        | some changeResult =>
          let changeHash := buildChangeHash changeResult
          if isDuplicateHash m.last_change_hash changeHash then
            ⟨true, true, none, false, m1⟩
          else if env.alertInsertFails then ⟨true, true, none, false, m1⟩
          else
            let alert : AlertRow :=
              ⟨m.id, changeResult.summary, prevSnap.id, env.newSnapshotId,
               changeResult.type, changeResult.old_value,
               changeResult.new_value, changeResult.plan,
               changeResult.confidence_score, false⟩
            if env.emailFails then ⟨true, true, some alert, true, m1⟩
            else
              ⟨true, true, some { alert with emailed := true }, true,
               { m1 with
                  last_meaningful_change_at := some env.now,
                  last_change_type := some changeResult.type,
                  last_change_hash := some changeHash }⟩

/-! ## The idempotency hash: digest shape -/

/-- A word serialises to four bytes. -/
theorem wordBytes_length (w : Nat) : (wordBytes w).length = 4 := rfl

/-- Serialised word bytes are below 256. -/
theorem wordBytes_lt (w : Nat) : ∀ b ∈ wordBytes w, b < 256 := by
  intro b hb
  simp only [wordBytes, List.mem_cons, List.not_mem_nil, or_false] at hb
  rcases hb with rfl | rfl | rfl | rfl <;> exact Nat.mod_lt _ (by norm_num)

/-- A SHA-256 digest is 32 bytes long, whatever the message. -/
theorem sha256_length (msg : List Nat) : (sha256 msg).length = 32 := by
  simp [sha256, wordBytes_length]

/-- Digest bytes are below 256. -/
theorem sha256_lt (msg : List Nat) : ∀ b ∈ sha256 msg, b < 256 := by
  intro b hb
  simp only [sha256, List.mem_append] at hb
  rcases hb with ((((((h | h) | h) | h) | h) | h) | h) | h <;>
    exact wordBytes_lt _ _ h

/-- Hex encoding doubles the length. -/
theorem bytesToHex_length (bs : List Nat) : (bytesToHex bs).length = 2 * bs.length := by
  induction bs with
  | nil => rfl
  | cons b bs ih =>
    simp only [bytesToHex, List.flatMap_cons, List.length_append,
      List.length_cons, List.length_nil, List.length_cons] at ih ⊢
    omega

/-- Every nibble encodes to a lowercase hex digit. -/
theorem hexDigit_mem (n : Nat) : hexDigit n ∈ hexAlphabet := by
  unfold hexDigit
  split <;> decide

/-- Every character of a hex encoding is a lowercase hex digit. -/
theorem bytesToHex_mem (bs : List Nat) : ∀ c ∈ bytesToHex bs, c ∈ hexAlphabet := by
  intro c hc
  simp only [bytesToHex, List.mem_flatMap, List.mem_cons, List.not_mem_nil,
    or_false] at hc
  obtain ⟨b, _, hc⟩ := hc
  rcases hc with rfl | rfl <;> exact hexDigit_mem _

/-- The characters of `buildChangeHash`. -/
theorem buildChangeHash_data (c : ChangeResult) :
    (buildChangeHash c).data = (bytesToHex (sha256 (strBytes (changeRaw c)))).take 32 :=
  rfl

/-- The hash string always has 32 characters. -/
theorem buildChangeHash_length (c : ChangeResult) : (buildChangeHash c).length = 32 := by
  show ((bytesToHex (sha256 (strBytes (changeRaw c)))).take 32).length = 32
  rw [List.length_take, bytesToHex_length, sha256_length]
  rfl

/-- The hash string is never empty, so it is JS-truthy in the duplicate
test. -/
theorem buildChangeHash_beq_empty (c : ChangeResult) :
    (buildChangeHash c == "") = false := by
  rw [beq_eq_false_iff_ne]
  intro he
  have h := buildChangeHash_length c
  rw [he] at h
  simp [String.length] at h

/-- C10: `buildChangeHash` is total and its output format is fixed — for
every `ChangeResult` it returns a string of exactly 32 lowercase
hexadecimal characters. -/
theorem c10_buildChangeHash_format (c : ChangeResult) :
    (buildChangeHash c).length = 32 ∧
      (buildChangeHash c).data.all (fun ch => hexAlphabet.contains ch) = true := by
  refine ⟨buildChangeHash_length c, ?_⟩
  rw [List.all_eq_true]
  intro ch hch
  rw [buildChangeHash_data] at hch
  have h2 := bytesToHex_mem _ ch (List.take_subset _ _ hch)
  simpa using h2

/-- A change record whose old/new values smuggle the `::` delimiter. -/
def collisionLeft : ChangeResult :=
  ⟨"price_change", "first wording", "a::b", "c", "Pro", 9 / 10⟩

/-- A different change record producing the same joined field string. -/
def collisionRight : ChangeResult :=
  ⟨"price_change", "second wording", "a", "b::c", "Pro", 9 / 10⟩

/-- C4 fails as stated: two `ChangeResult`s that differ in `old_value` and
`new_value` can carry the same fingerprint with certainty, because the
`::`-joined field string is not injective — the fields shown here join to
the identical string `price_change::a::b::c::Pro`. -/
theorem c4_counterexample :
    collisionLeft.old_value ≠ collisionRight.old_value ∧
    collisionLeft.new_value ≠ collisionRight.new_value ∧
    buildChangeHash collisionLeft = buildChangeHash collisionRight := by
  refine ⟨by decide, by decide, ?_⟩
  have h : changeRaw collisionLeft = changeRaw collisionRight := by decide
  unfold buildChangeHash
  rw [h]

/-- C4 amended: the fingerprint is deterministic and independent of the
summary — equal `type`, `old_value`, `new_value` and `plan` fields give
equal fingerprints; distinct fields give distinct fingerprints only when
the `::`-joined field strings differ, and fields containing the `::`
delimiter can collide deterministically. -/
theorem c4_fingerprint_deterministic (c1 c2 : ChangeResult)
    (ht : c1.type = c2.type) (ho : c1.old_value = c2.old_value)
    (hn : c1.new_value = c2.new_value) (hp : c1.plan = c2.plan) :
    buildChangeHash c1 = buildChangeHash c2 := by
  unfold buildChangeHash changeRaw
  rw [ht, ho, hn, hp]

/-- Witness for C4's amended theorem: two records equal up to summary and
confidence hash identically. -/
theorem c4_fingerprint_deterministic_witness :
    buildChangeHash ⟨"price_change", "price went up", "$29/mo", "$39/mo", "Pro", 9 / 10⟩ =
      buildChangeHash ⟨"price_change", "Pro now costs more", "$29/mo", "$39/mo", "Pro", 4 / 5⟩ :=
  c4_fingerprint_deterministic _ _ rfl rfl rfl rfl

/-! ## The change classifier's confidence gate -/

set_option maxRecDepth 40000

/-- An otherwise well-formed price-change response whose
`confidence_score` is the non-numeric string `"high"`. -/
def nanConfidenceResponse : ParsedResponse :=
  ⟨some (.str "price_change"), some (.str "Price increased"),
   some (.str "$29"), some (.str "$39"), some (.str "Pro"),
   some (.str "high")⟩

/-- C2 fails as stated: a well-formed price-change response whose
`confidence_score` is a non-numeric string is NOT treated as no-change.
`parseFloat("high")` is `NaN`, the JS test `NaN < 0.6` is false, so the
gate passes and the record is returned with `NaN` confidence. -/
theorem c2_counterexample :
    detectChanges (.parsed nanConfidenceResponse) =
      some ⟨"price_change", .str "Price increased", .str "$29", .str "$39",
            .str "Pro", none⟩ := by
  decide

/-- C2 amended: a `confidence_score` that is missing (or JSON `null`, which
`?? 0` also replaces), or numeric and below the 0.6 threshold, makes
`detectChanges` return no-change; but a non-numeric string confidence
parses to `NaN`, which passes the `< 0.6` test, so that case is not
gated. -/
theorem c2_confidence_gate (p : ParsedResponse)
    (h : p.confidence_score = none ∨ p.confidence_score = some .null ∨
      ∃ q : ℚ, p.confidence_score = some (.num q) ∧ q < 3 / 5) :
    detectChanges (.parsed p) = none := by
  have hgate : jsLtThreshold (confidenceOf p.confidence_score) = true := by
    rcases h with h | h | ⟨q, h, hq⟩ <;> rw [h]
    · simp [confidenceOf, jsLtThreshold]
    · simp [confidenceOf, jsLtThreshold]
    · simp [confidenceOf, jsLtThreshold]; exact hq
  show validateParsed p = none
  unfold validateParsed
  rcases p.type with _ | v
  · rfl
  · cases v with
    | str s => simp [hgate]
    | null => rfl
    | bool b => rfl
    | num q => rfl

/-- Witness for C2's amended theorem: the spec's own example, a
well-formed price-change record with numeric confidence 0.4, is treated
as no-change. -/
theorem c2_confidence_gate_witness :
    detectChanges (.parsed ⟨some (.str "price_change"), some (.str "ok"),
      some (.str "$29"), some (.str "$39"), some (.str "Pro"),
      some (.num (2 / 5))⟩) = none :=
  c2_confidence_gate _ (Or.inr (Or.inr ⟨2 / 5, rfl, by norm_num⟩))

/-! ## The orchestrator: duplicate suppression, cooldown, notify failure -/

/-- C1: for every monitor whose stored `last_change_hash` is non-null and
equal to the fingerprint of the freshly classified change, `processMonitor`
terminates without inserting an Alert, without invoking the notifier, and
without modifying the stored fingerprint. -/
theorem c1_duplicate_suppression (env : WorkerEnv) (m : Monitor)
    (cr : ChangeResult) (hdet : env.detectResult = some cr)
    (hhash : m.last_change_hash = some (buildChangeHash cr)) :
    (processMonitor env m).alertRow = none ∧
    (processMonitor env m).emailAttempted = false ∧
    (processMonitor env m).monitor.last_change_hash = m.last_change_hash := by
  have hdup : isDuplicateHash m.last_change_hash (buildChangeHash cr) = true := by
    rw [hhash]
    simp [isDuplicateHash, buildChangeHash_beq_empty cr]
  unfold processMonitor
  rw [hdet]
  split
  · exact ⟨rfl, rfl, rfl⟩
  · split
    · exact ⟨rfl, rfl, rfl⟩
    · split
      · exact ⟨rfl, rfl, rfl⟩
      · split
        · exact ⟨rfl, rfl, rfl⟩
        · split
          · exact ⟨rfl, rfl, rfl⟩
          · simp [hdup]

/-- A change result used by the concrete orchestrator runs below. -/
def crDemo : ChangeResult :=
  ⟨"price_change", "Pro plan price increased from $29 to $39",
   "$29/mo", "$39/mo", "Pro", 9 / 10⟩

/-- A monitor with no prior fingerprint and no cooldown stamp. -/
def monDemo : Monitor :=
  ⟨"mon-1", "user@example.com", "Acme", "https://acme.example/pricing",
   true, none, none, none, none⟩

/-- An environment in which everything succeeds except the email send. -/
def envEmailFail : WorkerEnv :=
  ⟨1700000000000, some "Starter $10/mo\nPro $39/mo",
   some ⟨"snap-0", "mon-1", "Starter $10/mo\nPro $29/mo", 1690000000000⟩,
   false, "snap-1", some crDemo, false, true⟩

/-- Witness for C1: a run whose stored fingerprint equals the classified
change's fingerprint inserts no alert, sends no mail, and leaves the
fingerprint untouched. -/
theorem c1_duplicate_suppression_witness :
    (processMonitor envEmailFail
        { monDemo with last_change_hash := some (buildChangeHash crDemo) }).alertRow = none ∧
    (processMonitor envEmailFail
        { monDemo with last_change_hash := some (buildChangeHash crDemo) }).emailAttempted = false ∧
    (processMonitor envEmailFail
        { monDemo with last_change_hash := some (buildChangeHash crDemo) }).monitor.last_change_hash =
      { monDemo with last_change_hash := some (buildChangeHash crDemo) }.last_change_hash :=
  c1_duplicate_suppression envEmailFail _ crDemo rfl rfl

/-- C8: a monitor checked less than 24 hours ago is skipped before any
fetch or mutation, and a monitor never checked or checked at least 24
hours ago proceeds to the fetch step. -/
theorem c8_cooldown_enforcement (env : WorkerEnv) (m : Monitor) :
    (∀ t, m.last_checked_at = some t → env.now - t < twentyFourHoursMs →
      processMonitor env m = ⟨false, false, none, false, m⟩) ∧
    ((m.last_checked_at = none ∨
        ∃ t, m.last_checked_at = some t ∧ twentyFourHoursMs ≤ env.now - t) →
      (processMonitor env m).fetchAttempted = true) := by
  constructor
  · intro t ht hlt
    have hc : cooldownActive env m = true := by
      simp [cooldownActive, ht, hlt]
    unfold processMonitor
    rw [hc]
    rfl
  · intro h
    have hc : cooldownActive env m = false := by
      rcases h with h | ⟨t, ht, hge⟩
      · simp [cooldownActive, h]
      · simp [cooldownActive, ht]
        omega
    unfold processMonitor
    rw [hc]
    simp only [Bool.false_eq_true, if_false]
    split
    · rfl
    · split
      · rfl
      · split
        · rfl
        · split
          · rfl
          · split
            · rfl
            · split
              · rfl
              · split
                · rfl
                · split <;> rfl

/-- A monitor stamped at time zero. -/
def monStamped : Monitor :=
  ⟨"mon-2", "user@example.com", "Acme", "https://acme.example/pricing",
   true, some 0, none, none, none⟩

/-- An environment whose clock reads two hours past the stamp. -/
def envTwoHours : WorkerEnv :=
  ⟨7200000, none, none, false, "snap-2", none, false, false⟩

/-- An environment whose clock reads twenty-five hours past the stamp. -/
def envTwentyFiveHours : WorkerEnv :=
  ⟨90000000, none, none, false, "snap-2", none, false, false⟩

/-- Witness for C8: checked two hours ago — skipped whole; checked
twenty-five hours ago — the fetch is attempted. -/
theorem c8_cooldown_enforcement_witness :
    processMonitor envTwoHours monStamped = ⟨false, false, none, false, monStamped⟩ ∧
    (processMonitor envTwentyFiveHours monStamped).fetchAttempted = true :=
  ⟨(c8_cooldown_enforcement envTwoHours monStamped).1 0 rfl (by decide),
   (c8_cooldown_enforcement envTwentyFiveHours monStamped).2
     (Or.inr ⟨0, rfl, by decide⟩)⟩

/-- C3 fails as stated: in a run where everything succeeds except the
email send, the alert row is persisted with `emailed = false` (that half
of the claim holds), but the monitor's stored fingerprint is NOT advanced
— it stays `none`, not `some (buildChangeHash crDemo)` — so the same
change WILL be re-attempted on the next cycle. -/
theorem c3_counterexample :
    (processMonitor envEmailFail monDemo).alertRow.map AlertRow.emailed = some false ∧
    (processMonitor envEmailFail monDemo).emailAttempted = true ∧
    (processMonitor envEmailFail monDemo).monitor.last_change_hash = none ∧
    (some (buildChangeHash crDemo) : Option String) ≠ none :=
  ⟨by decide, by decide, by decide, by simp⟩

/-- C3 amended: when the notification send fails, the Alert row remains
persisted with its `emailed` flag false, but the monitor's stored
fingerprint is NOT advanced (the update sits inside the `try` after the
send), so the same change is re-attempted on the next cycle. -/
theorem c3_notify_failure (env : WorkerEnv) (m : Monitor) (cr : ChangeResult)
    (prevSnap : Snapshot) (newContent : String)
    (hcool : cooldownActive env m = false)
    (hscrape : env.scrapeResult = some newContent)
    (hsnap : env.snapInsertFails = false)
    (hprev : env.prevSnapshot = some prevSnap)
    (hchanges : (compareSnapshots prevSnap.content newContent).hasChanges = true)
    (hdet : env.detectResult = some cr)
    (hdup : isDuplicateHash m.last_change_hash (buildChangeHash cr) = false)
    (halert : env.alertInsertFails = false)
    (hemail : env.emailFails = true) :
    (processMonitor env m).alertRow.map AlertRow.emailed = some false ∧
    (processMonitor env m).emailAttempted = true ∧
    (processMonitor env m).monitor.last_change_hash = m.last_change_hash := by
  unfold processMonitor
  simp [hcool, hscrape, hsnap, hprev, hdet, hchanges, hdup, halert, hemail]

/-- Witness for C3's amended theorem: the concrete failed-send run. -/
theorem c3_notify_failure_witness :
    (processMonitor envEmailFail monDemo).alertRow.map AlertRow.emailed = some false ∧
    (processMonitor envEmailFail monDemo).emailAttempted = true ∧
    (processMonitor envEmailFail monDemo).monitor.last_change_hash = monDemo.last_change_hash :=
  c3_notify_failure envEmailFail monDemo crDemo _ _ rfl rfl rfl rfl (by decide)
    rfl rfl rfl rfl

/-! ## The snapshot differ: reflexivity and context shape -/

/-- Whitespace-insensitive line equality is reflexive. -/
theorem lineEqIW_refl (l : Text) : lineEqIW l l = true := by
  simp [lineEqIW]

/-- With enough fuel, diffing a token list against itself keeps every
token. -/
theorem diffTokF_self (l : List Text) :
    ∀ f, l.length ≤ f → diffTokF f l l = l.map .same := by
  induction l with
  | nil => intro f _; cases f <;> rfl
  | cons x xs ih =>
    intro f hf
    match f with
    | fp + 1 =>
      simp only [diffTokF, lineEqIW_refl, if_true, List.map_cons]
      rw [ih fp (by simpa using Nat.lt_succ_iff.mp (Nat.lt_of_lt_of_le (Nat.lt_succ_self _) hf))]

/-- Diffing a token list against itself keeps every token. -/
theorem diffTok_self (l : List Text) : diffTok l l = l.map .same := by
  unfold diffTok
  exact diffTokF_self l (l.length + l.length) (by omega)

/-- Grouping kept tokens yields only unflagged parts. -/
theorem groupParts_same_flags (l : List Text) :
    ∀ p ∈ groupParts (l.map .same), p.added = false ∧ p.removed = false := by
  induction l with
  | nil => intro p hp; simp [groupParts] at hp
  | cons x xs ih =>
    intro p hp
    rw [List.map_cons] at hp
    simp only [groupParts] at hp
    rcases hgp : groupParts (List.map RawPart.same xs) with _ | ⟨q, qs⟩ <;>
      rw [hgp] at hp
    · simp only [partOf, List.mem_singleton] at hp
      subst hp
      exact ⟨rfl, rfl⟩
    · have hq := ih q (by rw [hgp]; exact List.mem_cons_self _ _)
      simp only [partOf, hq.1, hq.2, beq_self_eq_true, Bool.and_self, if_true,
        List.mem_cons] at hp
      rcases hp with rfl | hp
      · exact ⟨rfl, rfl⟩
      · exact ih p (by rw [hgp]; exact List.mem_cons_of_mem _ hp)

/-- Unflagged parts collect to empty added/removed lists. -/
theorem collectParts_unflagged (ps : List DiffPart)
    (h : ∀ p ∈ ps, p.added = false ∧ p.removed = false) :
    collectParts ps = ([], []) := by
  induction ps with
  | nil => rfl
  | cons p ps ih =>
    have hp := h p (List.mem_cons_self _ _)
    have hps := ih (fun q hq => h q (List.mem_cons_of_mem _ hq))
    unfold collectParts
    rw [hps]
    simp [hp.1, hp.2]

/-- C6: `compareSnapshots` is reflexive — comparing any text with itself
reports no added blocks, no removed blocks, and `hasChanges = false`. -/
theorem c6_compareSnapshots_refl (X : String) :
    compareSnapshots X X = ⟨[], [], false⟩ := by
  have h := collectParts_unflagged _
    (groupParts_same_flags (splitNl (stripNoiseL X.data)))
  simp [compareSnapshots, diffLines, diffTok_self, h]

/-- C7: `buildDiffContext` is `none` exactly when `compareSnapshots`
reports no changes; every non-`none` result is the removed section (at
most 10 removed blocks) followed by the added section (at most 10 added
blocks), truncated to at most `maxChars` characters. -/
theorem c7_buildDiffContext_shape (o n : String) (maxChars : Nat) :
    (buildDiffContext o n maxChars = none ↔
      (compareSnapshots o n).hasChanges = false) ∧
    (∀ s, buildDiffContext o n maxChars = some s →
      s.length ≤ maxChars ∧
      s = ⟨(removedSection (compareSnapshots o n).removed ++
            addedSection (compareSnapshots o n).added).data.take maxChars⟩ ∧
      ((compareSnapshots o n).removed.take 10).length ≤ 10 ∧
      ((compareSnapshots o n).added.take 10).length ≤ 10) := by
  constructor
  · unfold buildDiffContext
    rcases h : (compareSnapshots o n).hasChanges
    · simp [h]
    · simp [h]
  · intro s hs
    unfold buildDiffContext at hs
    rcases h : (compareSnapshots o n).hasChanges
    · simp only [h] at hs
      simp at hs
    · simp only [h, Bool.not_true, Bool.false_eq_true, if_false,
        Option.some.injEq] at hs
      subst hs
      refine ⟨?_, rfl, ?_, ?_⟩
      · show (List.take maxChars _).length ≤ maxChars
        rw [List.length_take]
        exact Nat.min_le_left _ _
      · rw [List.length_take]; exact Nat.min_le_left _ _
      · rw [List.length_take]; exact Nat.min_le_left _ _

/-- Witness for C7: the spec's §8 scenario has changes, so the context is
non-`none` and bounded by `maxChars`. -/
theorem c7_buildDiffContext_shape_witness :
    buildDiffContext "Starter $10/mo\nPro $29/mo" "Starter $10/mo\nPro $39/mo" 3000 =
      some "REMOVED:\nPro $29/mo\n\nADDED:\nPro $39/mo" ∧
    ("REMOVED:\nPro $29/mo\n\nADDED:\nPro $39/mo" : String).length ≤ 3000 := by
  have h0 : buildDiffContext "Starter $10/mo\nPro $29/mo" "Starter $10/mo\nPro $39/mo" 3000 =
      some "REMOVED:\nPro $29/mo\n\nADDED:\nPro $39/mo" := by decide
  exact ⟨h0,
    ((c7_buildDiffContext_shape "Starter $10/mo\nPro $29/mo"
      "Starter $10/mo\nPro $39/mo" 3000).2 _ h0).1⟩

/-! ## The noise filter: idempotence and line shape -/

/-- Left trim is idempotent. -/
theorem ltrim_idem (l : Text) : ltrim (ltrim l) = ltrim l := by
  unfold ltrim
  induction l with
  | nil => rfl
  | cons c cs ih =>
    rw [List.dropWhile_cons]
    split
    · exact ih
    · rw [List.dropWhile_cons]
      simp_all

/-- Right trim is idempotent. -/
theorem rtrim_idem (l : Text) : rtrim (rtrim l) = rtrim l := by
  unfold rtrim
  rw [List.reverse_reverse]
  show (ltrim (ltrim l.reverse)).reverse = (ltrim l.reverse).reverse
  rw [ltrim_idem]

/-- A cons with a whitespace head left-trims to the tail's trim. -/
theorem ltrim_cons_ws {c : Char} (hc : isJsWs c = true) (cs : Text) :
    ltrim (c :: cs) = ltrim cs := by
  unfold ltrim
  rw [List.dropWhile_cons, if_pos hc]

/-- A cons with a non-whitespace head is already left-trimmed. -/
theorem ltrim_cons_not_ws {c : Char} (hc : isJsWs c = false) (cs : Text) :
    ltrim (c :: cs) = c :: cs := by
  unfold ltrim
  rw [List.dropWhile_cons, if_neg (by simp [hc])]

/-- An all-whitespace text left-trims to nothing. -/
theorem ltrim_all_ws {l : Text} (h : ∀ c ∈ l, isJsWs c = true) : ltrim l = [] := by
  induction l with
  | nil => rfl
  | cons c cs ih =>
    rw [ltrim_cons_ws (h c (List.mem_cons_self _ _))]
    exact ih fun d hd => h d (List.mem_cons_of_mem _ hd)

/-- A text with an empty left trim is all whitespace. -/
theorem all_ws_of_ltrim_eq_nil {l : Text} (h : ltrim l = []) :
    ∀ c ∈ l, isJsWs c = true := by
  induction l with
  | nil => simp
  | cons c cs ih =>
    intro d hd
    by_cases hc : isJsWs c = true
    · rw [ltrim_cons_ws hc] at h
      rcases List.mem_cons.mp hd with rfl | hd
      · exact hc
      · exact ih h d hd
    · rw [ltrim_cons_not_ws (by simpa using hc)] at h
      cases h

/-- A cons with a non-whitespace head right-trims to the head plus the
tail's right trim. -/
theorem rtrim_cons_of_not_all_ws {c : Char} {cs : Text}
    (h : ¬ ∀ d ∈ cs, isJsWs d = true) : rtrim (c :: cs) = c :: rtrim cs := by
  unfold rtrim
  have hne : cs.reverse.dropWhile isJsWs ≠ [] := by
    intro hnil
    exact h fun d hd => all_ws_of_ltrim_eq_nil hnil d (List.mem_reverse.mpr hd)
  rw [List.reverse_cons, List.dropWhile_append,
    if_neg (by simpa [List.isEmpty_iff] using hne), List.reverse_append]
  simp

/-- Right-trimming an all-whitespace text gives nothing. -/
theorem rtrim_all_ws {l : Text} (h : ∀ c ∈ l, isJsWs c = true) : rtrim l = [] := by
  unfold rtrim
  show (ltrim l.reverse).reverse = []
  rw [ltrim_all_ws (fun c hc => h c (List.mem_reverse.mp hc))]
  rfl

/-- A cons with a non-whitespace head right-trims pointwise. -/
theorem rtrim_cons_not_ws {c : Char} (hc : isJsWs c = false) (cs : Text) :
    rtrim (c :: cs) = c :: rtrim cs := by
  unfold rtrim
  rw [List.reverse_cons, List.dropWhile_append]
  split
  · rename_i hemp
    rw [List.isEmpty_iff] at hemp
    rw [hemp]
    simp [List.dropWhile_cons, hc]
  · rw [List.reverse_append]
    simp

/-- The two trims commute. -/
theorem ltrim_rtrim_comm (l : Text) : ltrim (rtrim l) = rtrim (ltrim l) := by
  induction l with
  | nil => rfl
  | cons c cs ih =>
    by_cases hc : isJsWs c = true
    · rw [ltrim_cons_ws hc]
      by_cases hall : ∀ d ∈ cs, isJsWs d = true
      · have hall' : ∀ d ∈ c :: cs, isJsWs d = true := by
          intro d hd
          rcases List.mem_cons.mp hd with rfl | hd
          · exact hc
          · exact hall d hd
        rw [rtrim_all_ws hall', ltrim_all_ws hall, rtrim_all_ws (by simp)]
        rfl
      · rw [rtrim_cons_of_not_all_ws hall, ltrim_cons_ws hc, ih]
    · have hc' : isJsWs c = false := by simpa using hc
      simp [rtrim_cons_not_ws hc', ltrim_cons_not_ws hc']

/-- Trim swallows a preceding left trim. -/
theorem trimL_ltrim (l : Text) : trimL (ltrim l) = trimL l := by
  unfold trimL
  rw [ltrim_idem]

/-- Trim swallows a preceding right trim. -/
theorem trimL_rtrim (l : Text) : trimL (rtrim l) = trimL l := by
  unfold trimL
  rw [ltrim_rtrim_comm, rtrim_idem]

/-- Trim is idempotent. -/
theorem trimL_idem (l : Text) : trimL (trimL l) = trimL l := by
  show trimL (rtrim (ltrim l)) = trimL l
  rw [trimL_rtrim, trimL_ltrim]

/-- The newline split never returns an empty list of chunks. -/
theorem splitNl_ne_nil (t : Text) : splitNl t ≠ [] := by
  induction t with
  | nil => simp [splitNl]
  | cons c cs ih =>
    rw [splitNl]
    split
    · simp
    · rcases h : splitNl cs with _ | ⟨l, ls⟩ <;> simp

/-- Chunks of the newline split contain no newline. -/
theorem splitNl_no_nl (t : Text) : ∀ l ∈ splitNl t, '\n' ∉ l := by
  induction t with
  | nil =>
    intro l hl
    simp only [splitNl, List.mem_singleton] at hl
    subst hl
    simp
  | cons c cs ih =>
    intro l hl
    rw [splitNl] at hl
    by_cases hc : c = '\n'
    · rw [if_pos hc] at hl
      rcases List.mem_cons.mp hl with rfl | hl
      · simp
      · exact ih l hl
    · rw [if_neg hc] at hl
      rcases hsp : splitNl cs with _ | ⟨m, ms⟩
      · exact absurd hsp (splitNl_ne_nil cs)
      · rw [hsp] at hl
        rcases List.mem_cons.mp hl with rfl | hl
        · intro hmem
          rcases List.mem_cons.mp hmem with h | h
          · exact hc h.symm
          · exact ih m (by rw [hsp]; exact List.mem_cons_self _ _) h
        · exact ih l (by rw [hsp]; exact List.mem_cons_of_mem _ hl)

/-- A newline-free text splits into exactly itself. -/
theorem splitNl_of_no_nl (l : Text) (h : '\n' ∉ l) : splitNl l = [l] := by
  induction l with
  | nil => rfl
  | cons c cs ih =>
    have hc : c ≠ '\n' := fun hcc => h (hcc ▸ List.mem_cons_self _ _)
    rw [splitNl, if_neg hc, ih (fun hm => h (List.mem_cons_of_mem _ hm))]

/-- Splitting a newline-free chunk glued before a newline peels the
chunk. -/
theorem splitNl_append_nl (l : Text) (rest : Text) (hl : '\n' ∉ l) :
    splitNl (l ++ '\n' :: rest) = l :: splitNl rest := by
  induction l with
  | nil => simp [splitNl]
  | cons c cs ih =>
    have hc : c ≠ '\n' := fun hcc => hl (hcc ▸ List.mem_cons_self _ _)
    rw [List.cons_append, splitNl, if_neg hc,
      ih (fun hm => hl (List.mem_cons_of_mem _ hm))]

/-- The newline split is a left inverse of the newline join on nonempty
lists of newline-free chunks. -/
theorem splitNl_joinNl (L : List Text) (hL : L ≠ [])
    (hfree : ∀ l ∈ L, '\n' ∉ l) : splitNl (joinNl L) = L := by
  induction L with
  | nil => exact absurd rfl hL
  | cons l ls ih =>
    rcases ls with _ | ⟨m, ms⟩
    · exact splitNl_of_no_nl l (hfree l (List.mem_cons_self _ _))
    · show splitNl (l ++ '\n' :: joinNl (m :: ms)) = l :: m :: ms
      rw [splitNl_append_nl _ _ (hfree l (List.mem_cons_self _ _)),
        ih (by simp) (fun x hx => hfree x (List.mem_cons_of_mem _ hx))]

/-- A character of some chunk is a character of the join. -/
theorem mem_joinNl {c : Char} {L : List Text} {l : Text}
    (hl : l ∈ L) (hc : c ∈ l) : c ∈ joinNl L := by
  induction L with
  | nil => cases hl
  | cons x xs ih =>
    rcases xs with _ | ⟨y, ys⟩
    · rw [List.mem_singleton.mp hl] at hc
      exact hc
    · show c ∈ x ++ '\n' :: joinNl (y :: ys)
      rcases List.mem_cons.mp hl with rfl | hl
      · exact List.mem_append_left _ hc
      · exact List.mem_append_right _ (List.mem_cons_of_mem _ (ih hl))

/-- Dropping a cons head that is not a newline does not affect the
double-newline test. -/
theorem hasNlNl_cons_ne {c : Char} (hc : c ≠ '\n') (xs : Text) :
    hasNlNl (c :: xs) = hasNlNl xs := by
  rcases xs with _ | ⟨d, ds⟩
  · rw [hasNlNl.eq_def]
    split <;> simp_all [hasNlNl]
  · rw [hasNlNl.eq_def]
    split
    · rename_i heq
      rw [List.cons.injEq] at heq
      exact absurd heq.1 hc
    · rename_i x rest heq
      rw [List.cons.injEq] at heq
      rw [heq.2]
    · rename_i heq
      cases heq

/-- A newline-free text has no double newline. -/
theorem hasNlNl_of_no_nl {l : Text} (h : '\n' ∉ l) : hasNlNl l = false := by
  induction l with
  | nil => rfl
  | cons c cs ih =>
    rw [hasNlNl_cons_ne (fun hc => h (hc ▸ List.mem_cons_self _ _))]
    exact ih fun hm => h (List.mem_cons_of_mem _ hm)

/-- A single newline before a text whose head is not a newline: the
double-newline test ignores it. -/
theorem hasNlNl_nl_cons_eq {xs : Text} (hhead : xs.head? ≠ some '\n') :
    hasNlNl ('\n' :: xs) = hasNlNl xs := by
  rcases xs with _ | ⟨d, ds⟩
  · rfl
  · have hd : d ≠ '\n' := fun h => hhead (by rw [h]; rfl)
    rw [hasNlNl.eq_def]
    split
    · rename_i heq
      rw [List.cons.injEq, List.cons.injEq] at heq
      exact absurd heq.2.1 hd
    · rename_i x rest heq
      rw [List.cons.injEq] at heq
      rw [← heq.2]
    · rename_i heq
      cases heq

/-- A single newline before a text whose head is not a newline adds no
double newline. -/
theorem hasNlNl_nl_cons {xs : Text} (hhead : xs.head? ≠ some '\n')
    (hxs : hasNlNl xs = false) : hasNlNl ('\n' :: xs) = false := by
  rw [hasNlNl_nl_cons_eq hhead]
  exact hxs

/-- No double newline appears across a newline-free chunk glued to a
double-newline-free rest. -/
theorem hasNlNl_append {l rest : Text} (hl : '\n' ∉ l)
    (hr : hasNlNl rest = false) : hasNlNl (l ++ rest) = false := by
  induction l with
  | nil => simpa
  | cons c cs ih =>
    rw [List.cons_append,
      hasNlNl_cons_ne (fun hc => hl (hc ▸ List.mem_cons_self _ _))]
    exact ih fun hm => hl (List.mem_cons_of_mem _ hm)

/-- Joining nonempty newline-free chunks produces no double newline. -/
theorem hasNlNl_joinNl (L : List Text) (hfree : ∀ l ∈ L, '\n' ∉ l)
    (hne : ∀ l ∈ L, l ≠ []) : hasNlNl (joinNl L) = false := by
  induction L with
  | nil => rfl
  | cons l ls ih =>
    rcases ls with _ | ⟨m, ms⟩
    · exact hasNlNl_of_no_nl (hfree l (List.mem_cons_self _ _))
    · show hasNlNl (l ++ '\n' :: joinNl (m :: ms)) = false
      apply hasNlNl_append (hfree l (List.mem_cons_self _ _))
      have hm_mem : m ∈ l :: m :: ms := List.mem_cons_of_mem _ (List.mem_cons_self _ _)
      have hmne := hne m hm_mem
      have hmfree := hfree m hm_mem
      apply hasNlNl_nl_cons
      · rcases m with _ | ⟨c, cs⟩
        · exact absurd rfl hmne
        · have hc : c ≠ '\n' := fun h => hmfree (h ▸ List.mem_cons_self _ _)
          rcases ms with _ | ⟨k, ks⟩
          · show (c :: cs).head? ≠ some '\n'
            simpa using hc
          · show (c :: cs ++ '\n' :: joinNl (k :: ks)).head? ≠ some '\n'
            simpa using hc
      · exact ih (fun x hx => hfree x (List.mem_cons_of_mem _ hx))
          (fun x hx => hne x (List.mem_cons_of_mem _ hx))

/-- After a newline with no double newline, the next character is not a
newline. -/
theorem head_ne_nl_of_no_double {cs : Text}
    (h : hasNlNl ('\n' :: cs) = false) : cs.head? ≠ some '\n' := by
  intro hh
  rcases cs with _ | ⟨d, ds⟩
  · cases hh
  · have hd : d = '\n' := by
      have := Option.some.inj hh
      exact this
    subst hd
    rw [show hasNlNl ('\n' :: '\n' :: ds) = true from rfl] at h
    cases h

/-- The double-newline test passes to the tail. -/
theorem hasNlNl_tail {c : Char} {cs : Text}
    (h : hasNlNl (c :: cs) = false) : hasNlNl cs = false := by
  by_cases hc : c = '\n'
  · subst hc
    rw [hasNlNl_nl_cons_eq (head_ne_nl_of_no_double h)] at h
    exact h
  · rw [hasNlNl_cons_ne hc] at h
    exact h

/-- The collapse worker is the identity on double-newline-free text, given
a pending run of at most one newline not butting against a newline. -/
theorem collapseNlAux_no_double (l : Text) :
    hasNlNl l = false → ∀ n, n ≤ 1 → (n = 1 → l.head? ≠ some '\n') →
      collapseNlAux n l = List.replicate n '\n' ++ l := by
  induction l with
  | nil =>
    intro _ n hn _
    show List.replicate (min n 2) '\n' = _
    rw [Nat.min_eq_left (by omega), List.append_nil]
  | cons c cs ih =>
    intro h n hn hhead
    by_cases hc : c = '\n'
    · subst hc
      have hn0 : n = 0 := by
        by_contra hne0
        exact hhead (by omega) rfl
      subst hn0
      rw [collapseNlAux, if_pos rfl,
        ih (hasNlNl_tail h) 1 (by omega) (fun _ => head_ne_nl_of_no_double h)]
      simp
    · rw [collapseNlAux, if_neg hc, ih (hasNlNl_tail h) 0 (by omega) (by simp),
        Nat.min_eq_left (by omega)]
      simp

/-- The newline collapse is the identity on double-newline-free text. -/
theorem collapseNl_no_double {l : Text} (h : hasNlNl l = false) :
    collapseNl l = l := by
  have := collapseNlAux_no_double l h 0 (by omega) (by simp)
  simpa [collapseNl] using this

/-- Left-trimming distributes over an append whose left part keeps a
non-whitespace character. -/
theorem ltrim_append_of_non_ws {l : Text} (h : ∃ c ∈ l, isJsWs c = false)
    (r : Text) : ltrim (l ++ r) = ltrim l ++ r := by
  induction l with
  | nil => simp at h
  | cons c cs ih =>
    by_cases hc : isJsWs c = true
    · have h' : ∃ d ∈ cs, isJsWs d = false := by
        rcases h with ⟨d, hd, hdw⟩
        rcases List.mem_cons.mp hd with rfl | hd
        · rw [hc] at hdw; cases hdw
        · exact ⟨d, hd, hdw⟩
      rw [List.cons_append, ltrim_cons_ws hc, ltrim_cons_ws hc, ih h']
    · have hc' : isJsWs c = false := by simpa using hc
      rw [List.cons_append, ltrim_cons_not_ws hc', ltrim_cons_not_ws hc',
        List.cons_append]

/-- Right-trimming distributes over an append whose right part keeps a
non-whitespace character. -/
theorem rtrim_append_of_non_ws (a : Text) {b : Text}
    (h : ∃ c ∈ b, isJsWs c = false) : rtrim (a ++ b) = a ++ rtrim b := by
  unfold rtrim
  have hne : b.reverse.dropWhile isJsWs ≠ [] := by
    intro hnil
    rcases h with ⟨c, hc, hcw⟩
    have := all_ws_of_ltrim_eq_nil hnil c (List.mem_reverse.mpr hc)
    rw [this] at hcw
    cases hcw
  rw [List.reverse_append, List.dropWhile_append,
    if_neg (by simpa [List.isEmpty_iff] using hne), List.reverse_append,
    List.reverse_reverse]

/-- Right-trim the last chunk of a chunk list. -/
def mapLastRtrim : List Text → List Text
  | [] => []
  | [l] => [rtrim l]
  | l :: ls => l :: mapLastRtrim ls

/-- Left-trim the first chunk and right-trim the last chunk (trim a
single chunk fully): the effect of `trim` on a newline join. -/
def mapFL : List Text → List Text
  | [] => []
  | [l] => [trimL l]
  | l :: ls => ltrim l :: mapLastRtrim ls

/-- The last-chunk right trim keeps a list nonempty. -/
theorem mapLastRtrim_ne_nil {L : List Text} (h : L ≠ []) :
    mapLastRtrim L ≠ [] := by
  rcases L with _ | ⟨l, ls⟩
  · exact absurd rfl h
  · rcases ls with _ | ⟨m, ms⟩ <;> simp [mapLastRtrim]

/-- Members of `mapLastRtrim` are members, or right-trims of members. -/
theorem mem_mapLastRtrim {l' : Text} :
    ∀ {L : List Text}, l' ∈ mapLastRtrim L →
      ∃ l ∈ L, l' = l ∨ l' = rtrim l := by
  intro L
  induction L with
  | nil => intro h; cases h
  | cons x xs ih =>
    intro h
    rcases xs with _ | ⟨y, ys⟩
    · rw [show mapLastRtrim [x] = [rtrim x] from rfl] at h
      exact ⟨x, List.mem_singleton_self _, Or.inr (List.mem_singleton.mp h)⟩
    · rw [show mapLastRtrim (x :: y :: ys) = x :: mapLastRtrim (y :: ys) from rfl] at h
      rcases List.mem_cons.mp h with rfl | h
      · exact ⟨l', List.mem_cons_self _ _, Or.inl rfl⟩
      · rcases ih h with ⟨l, hl, hor⟩
        exact ⟨l, List.mem_cons_of_mem _ hl, hor⟩

/-- Members of `mapFL` are left-trims, right-trims, or full trims of
members. -/
theorem mem_mapFL {l' : Text} {L : List Text} (h : l' ∈ mapFL L) :
    ∃ l ∈ L, l' = l ∨ l' = ltrim l ∨ l' = rtrim l ∨ l' = trimL l := by
  rcases L with _ | ⟨x, xs⟩
  · cases h
  · rcases xs with _ | ⟨y, ys⟩
    · rw [show mapFL [x] = [trimL x] from rfl] at h
      exact ⟨x, List.mem_singleton_self _,
        Or.inr (Or.inr (Or.inr (List.mem_singleton.mp h)))⟩
    · rw [show mapFL (x :: y :: ys) = ltrim x :: mapLastRtrim (y :: ys) from rfl] at h
      rcases List.mem_cons.mp h with rfl | h
      · exact ⟨x, List.mem_cons_self _ _, Or.inr (Or.inl rfl)⟩
      · rcases mem_mapLastRtrim h with ⟨l, hl, hor⟩
        exact ⟨l, List.mem_cons_of_mem _ hl,
          hor.imp id (fun he => Or.inr (Or.inl he))⟩

/-- Left trim only removes characters. -/
theorem mem_of_mem_ltrim {c : Char} {l : Text} (h : c ∈ ltrim l) : c ∈ l := by
  induction l with
  | nil => cases h
  | cons d ds ih =>
    by_cases hd : isJsWs d = true
    · rw [ltrim_cons_ws hd] at h
      exact List.mem_cons_of_mem _ (ih h)
    · rw [ltrim_cons_not_ws (by simpa using hd)] at h
      exact h

/-- Right trim only removes characters. -/
theorem mem_of_mem_rtrim {c : Char} {l : Text} (h : c ∈ rtrim l) : c ∈ l := by
  unfold rtrim at h
  have := mem_of_mem_ltrim (List.mem_reverse.mp h)
  exact List.mem_reverse.mp this

/-- Trim only removes characters. -/
theorem mem_of_mem_trimL {c : Char} {l : Text} (h : c ∈ trimL l) : c ∈ l :=
  mem_of_mem_ltrim (mem_of_mem_rtrim h)

/-- Pattern matching sees only the trimmed line, so the noise test is
blind to a preceding left trim. -/
theorem isNoiseLine_ltrim (l : Text) : isNoiseLine (ltrim l) = isNoiseLine l := by
  unfold isNoiseLine
  rw [trimL_ltrim]

/-- The noise test is blind to a preceding right trim. -/
theorem isNoiseLine_rtrim (l : Text) : isNoiseLine (rtrim l) = isNoiseLine l := by
  unfold isNoiseLine
  rw [trimL_rtrim]

/-- The noise test is blind to a preceding full trim. -/
theorem isNoiseLine_trimL (l : Text) : isNoiseLine (trimL l) = isNoiseLine l := by
  unfold isNoiseLine
  rw [trimL_idem]

/-- Unpacking a negative noise verdict: the trimmed line is nonempty, at
least three characters, and matches no noise pattern. -/
theorem not_noise_spec {l : Text} (h : isNoiseLine l = false) :
    trimL l ≠ [] ∧ 3 ≤ (trimL l).length ∧
      ∀ p ∈ noisePatterns, testToks p (trimL l) = false := by
  unfold isNoiseLine at h
  simp only [Bool.or_eq_false_iff, List.any_eq_false, decide_eq_false_iff_not,
    Nat.not_lt, List.isEmpty_eq_false_iff_exists_mem] at h
  refine ⟨?_, h.1.2, fun p hp => by simpa using h.2 p hp⟩
  rcases h.1.1 with ⟨x, hx⟩
  intro hnil
  rw [hnil] at hx
  cases hx

/-- A line the filter keeps has a non-whitespace character. -/
theorem not_noise_has_non_ws {l : Text} (h : isNoiseLine l = false) :
    ∃ c ∈ l, isJsWs c = false := by
  have h1 := (not_noise_spec h).1
  by_contra hc
  push_neg at hc
  apply h1
  unfold trimL
  rw [ltrim_all_ws (fun c hcm => by
    have := hc c hcm
    simpa using this)]
  rfl

/-- Left-trimming the head chunk is all `trim`'s left half does to a
join of at least two chunks. -/
theorem ltrim_joinNl (l : Text) (m : Text) (ms : List Text)
    (h : ∃ c ∈ l, isJsWs c = false) :
    ltrim (joinNl (l :: m :: ms)) = ltrim l ++ '\n' :: joinNl (m :: ms) := by
  show ltrim (l ++ '\n' :: joinNl (m :: ms)) = _
  exact ltrim_append_of_non_ws h _

/-- Right-trimming the last chunk is all `trim`'s right half does to a
join of chunks each holding a non-whitespace character. -/
theorem rtrim_joinNl (L : List Text)
    (h : ∀ l ∈ L, ∃ c ∈ l, isJsWs c = false) :
    rtrim (joinNl L) = joinNl (mapLastRtrim L) := by
  induction L with
  | nil => rfl
  | cons l ls ih =>
    rcases ls with _ | ⟨m, ms⟩
    · rfl
    · have hjoin : ∃ c ∈ joinNl (m :: ms), isJsWs c = false := by
        rcases h m (List.mem_cons_of_mem _ (List.mem_cons_self _ _)) with ⟨c, hc, hcw⟩
        exact ⟨c, mem_joinNl (List.mem_cons_self _ _) hc, hcw⟩
      show rtrim (l ++ '\n' :: joinNl (m :: ms)) = joinNl (l :: mapLastRtrim (m :: ms))
      rw [show (('\n' :: joinNl (m :: ms) : Text)) = ['\n'] ++ joinNl (m :: ms) from rfl,
        ← List.append_assoc,
        rtrim_append_of_non_ws (l ++ ['\n']) hjoin,
        ih (fun x hx => h x (List.mem_cons_of_mem _ hx))]
      rcases hmap : mapLastRtrim (m :: ms) with _ | ⟨k, ks⟩
      · exact absurd hmap (mapLastRtrim_ne_nil (by simp))
      · show l ++ ['\n'] ++ joinNl (k :: ks) = joinNl (l :: k :: ks)
        simp [joinNl]

/-- A left trim keeps some non-whitespace character when there is one. -/
theorem has_non_ws_ltrim {l : Text} (h : ∃ c ∈ l, isJsWs c = false) :
    ∃ c ∈ ltrim l, isJsWs c = false := by
  induction l with
  | nil => simp at h
  | cons d ds ih =>
    by_cases hd : isJsWs d = true
    · rw [ltrim_cons_ws hd]
      apply ih
      rcases h with ⟨c, hc, hcw⟩
      rcases List.mem_cons.mp hc with rfl | hc
      · rw [hd] at hcw; cases hcw
      · exact ⟨c, hc, hcw⟩
    · rw [ltrim_cons_not_ws (by simpa using hd)]
      exact h

/-- A right trim keeps some non-whitespace character when there is one. -/
theorem has_non_ws_rtrim {l : Text} (h : ∃ c ∈ l, isJsWs c = false) :
    ∃ c ∈ rtrim l, isJsWs c = false := by
  unfold rtrim
  have hrev : ∃ c ∈ l.reverse, isJsWs c = false := by
    rcases h with ⟨c, hc, hw⟩
    exact ⟨c, List.mem_reverse.mpr hc, hw⟩
  rcases has_non_ws_ltrim hrev with ⟨c, hc, hw⟩
  exact ⟨c, List.mem_reverse.mpr hc, hw⟩

/-- A full trim keeps some non-whitespace character when there is one. -/
theorem has_non_ws_trimL {l : Text} (h : ∃ c ∈ l, isJsWs c = false) :
    ∃ c ∈ trimL l, isJsWs c = false :=
  has_non_ws_rtrim (has_non_ws_ltrim h)

/-- Trimming a join of chunks each holding a non-whitespace character
trims the first and last chunks in place. -/
theorem trimL_joinNl (L : List Text) (hL : L ≠ [])
    (h : ∀ l ∈ L, ∃ c ∈ l, isJsWs c = false) :
    trimL (joinNl L) = joinNl (mapFL L) := by
  rcases L with _ | ⟨l, ls⟩
  · exact absurd rfl hL
  rcases ls with _ | ⟨m, ms⟩
  · rfl
  · show trimL (joinNl (l :: m :: ms)) = joinNl (ltrim l :: mapLastRtrim (m :: ms))
    unfold trimL
    rw [ltrim_joinNl l m ms (h l (List.mem_cons_self _ _))]
    have hall : ∀ x ∈ ltrim l :: m :: ms, ∃ c ∈ x, isJsWs c = false := by
      intro x hx
      rcases List.mem_cons.mp hx with rfl | hx
      · exact has_non_ws_ltrim (h l (List.mem_cons_self _ _))
      · exact h x (List.mem_cons_of_mem _ hx)
    have hrt := rtrim_joinNl (ltrim l :: m :: ms) hall
    rw [show joinNl (ltrim l :: m :: ms) = ltrim l ++ '\n' :: joinNl (m :: ms) from rfl] at hrt
    rw [hrt]
    rfl

/-- The last-chunk right trim is idempotent. -/
theorem mapLastRtrim_idem (L : List Text) :
    mapLastRtrim (mapLastRtrim L) = mapLastRtrim L := by
  induction L with
  | nil => rfl
  | cons x xs ih =>
    rcases xs with _ | ⟨y, ys⟩
    · show [rtrim (rtrim x)] = [rtrim x]
      rw [rtrim_idem]
    · show mapLastRtrim (x :: mapLastRtrim (y :: ys)) = x :: mapLastRtrim (y :: ys)
      rcases hmap : mapLastRtrim (y :: ys) with _ | ⟨k, ks⟩
      · exact absurd hmap (mapLastRtrim_ne_nil (by simp))
      · have h2 := ih
        rw [hmap] at h2
        show x :: mapLastRtrim (k :: ks) = x :: k :: ks
        rw [h2]

/-- The first-and-last chunk trim is idempotent. -/
theorem mapFL_idem (L : List Text) : mapFL (mapFL L) = mapFL L := by
  rcases L with _ | ⟨l, ls⟩
  · rfl
  rcases ls with _ | ⟨m, ms⟩
  · show [trimL (trimL l)] = [trimL l]
    rw [trimL_idem]
  · show mapFL (ltrim l :: mapLastRtrim (m :: ms)) = ltrim l :: mapLastRtrim (m :: ms)
    rcases hmap : mapLastRtrim (m :: ms) with _ | ⟨k, ks⟩
    · exact absurd hmap (mapLastRtrim_ne_nil (by simp))
    · have h2 := mapLastRtrim_idem (m :: ms)
      rw [hmap] at h2
      show ltrim (ltrim l) :: mapLastRtrim (k :: ks) = ltrim l :: k :: ks
      rw [ltrim_idem, h2]

/-- Kept chunks pass the noise test. -/
theorem keptChunks_keep (t : Text) :
    ∀ l ∈ (splitNl t).filter (fun l => !isNoiseLine l), isNoiseLine l = false := by
  intro l hl
  have := (List.mem_filter.mp hl).2
  simpa using this

/-- Kept chunks are newline-free. -/
theorem keptChunks_free (t : Text) :
    ∀ l ∈ (splitNl t).filter (fun l => !isNoiseLine l), '\n' ∉ l :=
  fun l hl => splitNl_no_nl t l (List.mem_filter.mp hl).1

/-- Trimming first and last chunks preserves a clean noise verdict. -/
theorem mapFL_keep {L : List Text} (hkeep : ∀ l ∈ L, isNoiseLine l = false) :
    ∀ l' ∈ mapFL L, isNoiseLine l' = false := by
  intro l' hl'
  rcases mem_mapFL hl' with ⟨l, hl, h | h | h | h⟩
  · rw [h]; exact hkeep l hl
  · rw [h, isNoiseLine_ltrim]; exact hkeep l hl
  · rw [h, isNoiseLine_rtrim]; exact hkeep l hl
  · rw [h, isNoiseLine_trimL]; exact hkeep l hl

/-- Trimming first and last chunks preserves newline-freeness. -/
theorem mapFL_no_nl {L : List Text} (hfree : ∀ l ∈ L, '\n' ∉ l) :
    ∀ l' ∈ mapFL L, '\n' ∉ l' := by
  intro l' hl' hmem
  rcases mem_mapFL hl' with ⟨l, hl, h | h | h | h⟩ <;> rw [h] at hmem
  · exact hfree l hl hmem
  · exact hfree l hl (mem_of_mem_ltrim hmem)
  · exact hfree l hl (mem_of_mem_rtrim hmem)
  · exact hfree l hl (mem_of_mem_trimL hmem)

/-- Canonical form of the noise filter's output: the kept chunks, with
the first left-trimmed and the last right-trimmed, joined by newlines. -/
theorem stripNoiseL_structure (t : Text) :
    stripNoiseL t =
      joinNl (mapFL ((splitNl t).filter (fun l => !isNoiseLine l))) := by
  unfold stripNoiseL
  have hkeep := keptChunks_keep t
  have hfree := keptChunks_free t
  have hnonws : ∀ l ∈ (splitNl t).filter (fun l => !isNoiseLine l),
      ∃ c ∈ l, isJsWs c = false :=
    fun l hl => not_noise_has_non_ws (hkeep l hl)
  have hne : ∀ l ∈ (splitNl t).filter (fun l => !isNoiseLine l), l ≠ [] := by
    intro l hl hnil
    rcases hnonws l hl with ⟨c, hc, _⟩
    rw [hnil] at hc
    cases hc
  rw [collapseNl_no_double (hasNlNl_joinNl _ hfree hne)]
  by_cases hnil : (splitNl t).filter (fun l => !isNoiseLine l) = []
  · rw [hnil]
    rfl
  · exact trimL_joinNl _ hnil hnonws

/-- The noise filter fixes any text already in canonical form. -/
theorem stripNoiseL_of_canonical (M : List Text)
    (hkeep : ∀ l ∈ M, isNoiseLine l = false)
    (hfree : ∀ l ∈ M, '\n' ∉ l)
    (hFL : mapFL M = M) :
    stripNoiseL (joinNl M) = joinNl M := by
  have hnonws : ∀ l ∈ M, ∃ c ∈ l, isJsWs c = false :=
    fun l hl => not_noise_has_non_ws (hkeep l hl)
  have hne : ∀ l ∈ M, l ≠ [] := by
    intro l hl hnil
    rcases hnonws l hl with ⟨c, hc, _⟩
    rw [hnil] at hc
    cases hc
  by_cases hnil : M = []
  · subst hnil
    decide
  · unfold stripNoiseL
    rw [splitNl_joinNl M hnil hfree,
      List.filter_eq_self.mpr (fun a ha => by simpa using hkeep a ha),
      collapseNl_no_double (hasNlNl_joinNl M hfree hne),
      trimL_joinNl M hnil hnonws, hFL]

/-- The noise filter is idempotent on character lists. -/
theorem stripNoiseL_idem (t : Text) :
    stripNoiseL (stripNoiseL t) = stripNoiseL t := by
  rw [stripNoiseL_structure t]
  exact stripNoiseL_of_canonical _
    (mapFL_keep (keptChunks_keep t)) (mapFL_no_nl (keptChunks_free t))
    (mapFL_idem _)

/-- C5: the noise filter is idempotent — for every input text `T`,
`stripNoise (stripNoise T) = stripNoise T`. -/
theorem c5_stripNoise_idem (T : String) :
    stripNoise (stripNoise T) = stripNoise T :=
  congrArg String.mk (stripNoiseL_idem T.data)

/-- The lines of a string, splitting on newline; the empty text has no
lines. -/
def linesOf (s : String) : List String :=
  if s.data = [] then [] else (splitNl s.data).map String.mk

/-- C9: every line of the noise filter's output is non-blank, has trimmed
length at least three, and matches none of the noise patterns — so the
output never contains an empty line and the newline-collapsing step never
retains a blank line. -/
theorem c9_stripNoise_lines (t : String) :
    ∀ l ∈ linesOf (stripNoise t),
      l ≠ "" ∧ trimL l.data ≠ [] ∧ 3 ≤ (trimL l.data).length ∧
        ∀ p ∈ noisePatterns, testToks p (trimL l.data) = false := by
  intro l hl
  unfold linesOf at hl
  split at hl
  · cases hl
  · rename_i hne
    have hdata : (stripNoise t).data =
        joinNl (mapFL ((splitNl t.data).filter (fun l => !isNoiseLine l))) :=
      stripNoiseL_structure t.data
    have hkeepM := mapFL_keep (keptChunks_keep t.data)
    have hfreeM := mapFL_no_nl (keptChunks_free t.data)
    have hneM : ∀ x ∈ mapFL ((splitNl t.data).filter (fun l => !isNoiseLine l)),
        x ≠ [] := by
      intro x hx hnil
      rcases not_noise_has_non_ws (hkeepM x hx) with ⟨c, hc, _⟩
      rw [hnil] at hc
      cases hc
    have hMne : mapFL ((splitNl t.data).filter (fun l => !isNoiseLine l)) ≠ [] := by
      intro hM
      apply hne
      rw [hdata, hM]
      rfl
    rw [hdata, splitNl_joinNl _ hMne hfreeM] at hl
    rcases List.mem_map.mp hl with ⟨l', hl', rfl⟩
    have hkeep := hkeepM l' hl'
    have hspec := not_noise_spec hkeep
    refine ⟨?_, hspec.1, hspec.2.1, hspec.2.2⟩
    intro hempty
    exact hneM l' hl' (congrArg String.data hempty)

/-- Witness for C9: the single kept line of a one-line pricing text. -/
theorem c9_stripNoise_lines_witness :
    ("Pro $29/mo" ∈ linesOf (stripNoise "Pro $29/mo")) ∧
    ("Pro $29/mo" : String) ≠ "" ∧
    trimL ("Pro $29/mo" : String).data ≠ [] ∧
    3 ≤ (trimL ("Pro $29/mo" : String).data).length := by
  have hm : ("Pro $29/mo" : String) ∈ linesOf (stripNoise "Pro $29/mo") := by
    decide
  have h := c9_stripNoise_lines "Pro $29/mo" _ hm
  exact ⟨hm, h.1, h.2.1, h.2.2.1⟩

end PricingRadar
